import Mathlib

/-!
Verification of the crossword CSP solver (`generate.py`, class `CrosswordCreator`).

The solver's state is a crossword (the Slot Model: slots, overlap relation,
vocabulary) together with a mutable domain store mapping each slot to its
current list of candidate words.  Python dictionaries are embedded as
association lists (insertion order preserved, unique keys in all reachable
states); Python sets of words are embedded as duplicate-free lists; Python
strings are lists of characters.  A Python expression that can raise an
exception (KeyError on a missing dictionary key, IndexError on out-of-range
string indexing, TypeError on unpacking an absent overlap) is embedded as a
function returning `Option`, with `none` for the raised exception.
-/

/-- A slot of the crossword grid (`Variable` in the source): top-left cell
`(i, j)`, `length` cells, and a direction (`down = true` for DOWN, `false`
for ACROSS).  Identity is the full tuple. -/
structure Slot where
  i : Nat
  j : Nat
  length : Nat
  down : Bool
deriving DecidableEq, Repr

/-- A word: a Python string as a list of characters. -/
abbrev Word := List Char

/-- A partial assignment: a Python dict from slots to words, as an
association list in insertion order. -/
abbrev Assignment := List (Slot × Word)

/-- Modelled from the spec: the Slot Model (`crossword.py` is not part of the
verified sources).  It provides the slot list, the vocabulary, and the overlap
relation; per §6 of the spec the neighbor relation is derived from the overlap
relation.  `overlapsData` records, for ordered pairs of distinct slots sharing
a grid cell, the character offset in each slot's word; pairs with no shared
cell are absent. -/
structure Crossword where
  vars : List Slot
  words : List Word
  overlapsData : List ((Slot × Slot) × (Nat × Nat))
deriving DecidableEq, Repr

/-- Modelled from the spec: `crossword.overlaps[x, y]` — the overlap index
pair for the ordered pair `(x, y)`, or an explicit absence signal.  In the
source an absent overlap makes `x_i, y_i = self.crossword.overlaps[x,y]`
raise, which the callers embed as `none`. -/
def overlap? (cw : Crossword) (x y : Slot) : Option (Nat × Nat) :=
  match cw.overlapsData.find? (fun e => e.1 == (x, y)) with
  | none => none
  | some e => some e.2

/-- Modelled from the spec: `crossword.neighbors(x)` — the slots other than
`x` that have an overlap entry with `x`. -/
def neighbors (cw : Crossword) (x : Slot) : List Slot :=
  cw.vars.filter (fun w => !(w == x) && (overlap? cw x w).isSome)

/-- The mutable state of a `CrosswordCreator`: the (immutable) crossword and
the domain store `self.domains`, a dict from each slot to its current list of
candidate words. -/
structure CCState where
  crossword : Crossword
  domains : List (Slot × List Word)
deriving DecidableEq, Repr

/-- `self.domains[v]` — dict lookup, `none` for a KeyError. -/
def getDomain? : List (Slot × List Word) → Slot → Option (List Word)
  | [], _ => none
  | (k, d) :: rest, v => if k = v then some d else getDomain? rest v

/-- `self.domains[x] = d` — dict write on an existing key (replaces the
first entry with key `x`; in every reachable call the key is present). -/
def setDomain (x : Slot) (d : List Word) : List (Slot × List Word) → List (Slot × List Word)
  | [] => []
  | (k, dk) :: rest => if k = x then (x, d) :: rest else (k, dk) :: setDomain x d rest

/-- `assignment[v]` — dict lookup in a partial assignment, `none` for a
KeyError. -/
def lookupWord : Assignment → Slot → Option Word
  | [], _ => none
  | (k, w) :: rest, v => if k = v then some w else lookupWord rest v

/-- `assignment[v] = w` — dict write: replaces the value if `v` is already a
key (keeping its position), otherwise appends the new key at the end. -/
def setAssign (v : Slot) (w : Word) : Assignment → Assignment
  | [] => [(v, w)]
  | (k, u) :: rest => if k = v then (v, w) :: rest else (k, u) :: setAssign v w rest

/-- The keys of the domain store, in insertion order
(`self.domains.keys()`). -/
def keysOf (l : List (Slot × List Word)) : List Slot := l.map Prod.fst

/-- `CrosswordCreator.__init__`: every slot's domain starts as a copy of the
full vocabulary. -/
def initState (cw : Crossword) : CCState :=
  { crossword := cw, domains := cw.vars.map (fun v => (v, cw.words)) }

/-- `enforce_node_consistency`: rebuild the domain store, keeping in each
slot's domain exactly the words whose length equals the slot's length.
(`set(filter(...))` on a duplicate-free collection is the filter itself.) -/
def enforce_node_consistency (s : CCState) : CCState :=
  { s with domains := s.domains.map (fun p => (p.1, p.2.filter (fun w => w.length == p.1.length))) }

/-- The inner list comprehension of `revise`:
`[word_y for word_y in domain_y if word_x[x_i] == word_y[y_i]]`.
Indexing is evaluated once per element of `domain_y`, so an out-of-range
index raises (`none`) only when `domain_y` is non-empty. -/
def compatFilter (xi yi : Nat) (wx : Word) : List Word → Option (List Word)
  | [] => some []
  | wy :: rest =>
    match wx.get? xi, wy.get? yi with
    | some cx, some cy =>
      match compatFilter xi yi wx rest with
      | none => none
      | some others => some (if cx = cy then wy :: others else others)
    | _, _ => none

/-- The outer loop of `revise`: keep each `word_x` whose list of compatible
words in `domain_y` is non-empty. -/
def buildNewDomain (xi yi : Nat) (dy : List Word) : List Word → Option (List Word)
  | [] => some []
  | wx :: rest =>
    match compatFilter xi yi wx dy with
    | none => none
    | some compat =>
      match buildNewDomain xi yi dy rest with
      | none => none
      | some others => some (if compat.length != 0 then wx :: others else others)

/-- `revise(x, y)`: remove from `x`'s domain every word with no compatible
word in `y`'s domain at the overlap indices, write the new domain back, and
return whether the domain's size changed.  `none` models the Python
exceptions (missing dict key, absent overlap, out-of-range index). -/
def revise (s : CCState) (x y : Slot) : Option (CCState × Bool) :=
  match getDomain? s.domains x with
  | none => none
  | some dx =>
    match getDomain? s.domains y with
    | none => none
    | some dy =>
      match overlap? s.crossword x y with
      | none => none
      | some (xi, yi) =>
        match buildNewDomain xi yi dy dx with
        | none => none
        | some nd =>
          some ({ s with domains := setDomain x nd s.domains }, nd.length != dx.length)

/-- The loop of `ac3`, with explicit fuel counting loop iterations.  The
result is `none` when the fuel runs out before the loop finishes (the loop is
proved below to finish with bounded fuel), `some none` when an iteration
raises, and `some (some (b, s))` when the loop returns `b` in state `s`.
Each iteration pops the front arc `(x, y)`, calls `revise(x, y)`; on a
revision it fails if `x`'s domain became empty and otherwise appends one arc
`(x, neighbor)` per neighbor of `x` to the back of the worklist. -/
def ac3LoopF : Nat → CCState → List (Slot × Slot) → Option (Option (Bool × CCState))
  | _, s, [] => some (some (true, s))
  | 0, _, _ :: _ => none
  | n + 1, s, (x, y) :: rest =>
    match revise s x y with
    | none => some none
    | some (s', c) =>
      if c then
        match getDomain? s'.domains x with
        | none => some none
        | some dx' =>
          if dx'.length = 0 then some (some (false, s'))
          else ac3LoopF n s' (rest ++ (neighbors s'.crossword x).map (fun nb => (x, nb)))
      else ac3LoopF n s' rest

/-- `ac3(arcs)`: when `arcs` is `None` the worklist is seeded with one arc
per ordered pair of a domain-store key and one of its neighbors; otherwise
the supplied list is used.  Fuel as in `ac3LoopF`. -/
def ac3F (n : Nat) (s : CCState) (arcs : Option (List (Slot × Slot))) :
    Option (Option (Bool × CCState)) :=
  let initial := match arcs with
    | some a => a
    | none => (keysOf s.domains).flatMap (fun x => (neighbors s.crossword x).map (fun y => (x, y)))
  ac3LoopF n s initial

/-- `assignment_complete`: every slot of the crossword is a key of the
assignment. -/
def assignment_complete (cw : Crossword) (asg : Assignment) : Bool :=
  cw.vars.all (fun v => asg.any (fun p => p.1 == v))

/-- The neighbor loop of `consistent` for one assigned slot `var` holding
`word`: each neighbor's word is looked up with `assignment[neighbor]` (a
KeyError — `none` — when the neighbor is unassigned; the source's
`if neighbor_word == None: continue` is unreachable because dict values are
words, never `None`), the overlap indices are fetched, and the two characters
are compared. -/
def checkNeighbors (cw : Crossword) (asg : Assignment) (var : Slot) (word : Word) :
    List Slot → Option Bool
  | [] => some true
  | nb :: rest =>
    match lookupWord asg nb with
    | none => none
    | some nbWord =>
      match overlap? cw var nb with
      | none => none
      | some (vi, ni) =>
        match word.get? vi, nbWord.get? ni with
        | some c1, some c2 =>
          if c1 = c2 then checkNeighbors cw asg var word rest else some false
        | _, _ => none

/-- `consistent`'s scan over `assignment.items()`, carrying the list of
words already seen (`present_words`). -/
def consistentAux (cw : Crossword) (asg : Assignment) :
    List Word → List (Slot × Word) → Option Bool
  | _, [] => some true
  | present, (var, word) :: rest =>
    if present.any (fun w => w == word) || !(word.length == var.length) then some false
    else
      match checkNeighbors cw asg var word (neighbors cw var) with
      | none => none
      | some false => some false
      | some true => consistentAux cw asg (present ++ [word]) rest

/-- `consistent(assignment)`: scan the items in insertion order, rejecting a
reused word, a length mismatch, or a character clash with an assigned
neighbor at the overlap indices. -/
def consistent (cw : Crossword) (asg : Assignment) : Option Bool :=
  consistentAux cw asg [] asg

/-- Python `min` over the values of a non-empty dict (`none` for the
`ValueError` on an empty sequence). -/
def minNat? : List Nat → Option Nat
  | [] => none
  | n :: rest =>
    match minNat? rest with
    | none => some n
    | some m => some (Nat.min n m)

/-- Assoc-list lookup for the per-slot tallies built by the heuristics. -/
def lookupNat : List (Slot × Nat) → Slot → Option Nat
  | [], _ => none
  | (k, n) :: rest, v => if k = v then some n else lookupNat rest v

/-- `{variable: len(self.domains[variable]) for variable in rem}` — the
domain size of each remaining slot (`none` for a KeyError on a slot missing
from the domain store). -/
def sizesOf (s : CCState) : List Slot → Option (List (Slot × Nat))
  | [] => some []
  | v :: rest =>
    match getDomain? s.domains v with
    | none => none
    | some d =>
      match sizesOf s rest with
      | none => none
      | some tl => some ((v, d.length) :: tl)

/-- `select_unassigned_variable(assignment)`: restrict the unassigned slots
to those of minimum domain size; if exactly one slot is unassigned overall,
return the first of that restriction; otherwise restrict further to the
slots of minimum (sic) neighbor count and let `random.choice` — abstracted
as the `choice` argument — pick among them.  `none` models the exceptions
(KeyError on the domain store, IndexError of `random.choice` on an empty
list). -/
def select_unassigned_variable (s : CCState) (asg : Assignment)
    (choice : List Slot → Option Slot) : Option Slot :=
  let rem := s.crossword.vars.filter (fun v => !(asg.any (fun p => p.1 == v)))
  match sizesOf s rem with
  | none => none
  | some sizes =>
    let mrv := rem.filter (fun v => lookupNat sizes v == minNat? (sizes.map Prod.snd))
    if rem.length = 1 then
      mrv.head?
    else
      let degs := mrv.map (fun v => (v, (neighbors s.crossword v).length))
      let tied := mrv.filter (fun v => lookupNat degs v == minNat? (degs.map Prod.snd))
      choice tied

/-- The key deduplication performed by the dict comprehension
`{value: 0 for value in self.domains[var]}`: keep the first occurrence of
each word. -/
def dedupWords : List Word → List Word → List Word
  | _, [] => []
  | seen, w :: rest =>
    if seen.any (fun x => x == w) then dedupWords seen rest
    else w :: dedupWords (seen ++ [w]) rest

/-- Stable insertion used to model Python's stable `list.sort(key=...)`. -/
def insertByCost (cost : Word → Nat) (w : Word) : List Word → List Word
  | [] => [w]
  | x :: xs => if cost w ≤ cost x then w :: x :: xs else x :: insertByCost cost w xs

/-- Stable sort of the candidate words, ascending by cost (the unique result
of any stable sort, hence of Python's `list.sort`). -/
def sortByCost (cost : Word → Nat) : List Word → List Word
  | [] => []
  | w :: rest => insertByCost cost w (sortByCost cost rest)

/-- `order_domain_values(var, assignment)`: each candidate word of `var`'s
domain is tallied once per assigned neighbor holding exactly that word, and
the candidates are returned in ascending order of tally. -/
def order_domain_values (s : CCState) (var : Slot) (asg : Assignment) :
    Option (List Word) :=
  match getDomain? s.domains var with
  | none => none
  | some dom =>
    let keys := dedupWords [] dom
    let cost := fun w =>
      ((neighbors s.crossword var).filter (fun nb => lookupWord asg nb == some w)).length
    some (sortByCost cost keys)

/-- The `for possible_value in possible_values` loop of `backtrack`: try the
candidate words in order through `rec` (the recursive call at the extended
assignment), returning the first non-`None` result, `some none` when the
loop exhausts the candidates (the implicit `return None`), and `none` when a
recursive call raises. -/
def tryValues (rec : Assignment → Option (Option Assignment))
    (asg : Assignment) (v : Slot) : List Word → Option (Option Assignment)
  | [] => some none
  | w :: rest =>
    match rec (setAssign v w asg) with
    | none => none
    | some (some a) => some (some a)
    | some none => tryValues rec asg v rest

/-- `backtrack(assignment)`, with fuel bounding the recursion depth (the
depth is bounded by the number of slots, each recursive call assigning one
more slot): if the assignment is complete, return it when `consistent` and
`None` otherwise; else pick an unassigned slot, order its candidates, and
try them in order.  `none` models both a raised exception and exhausted
fuel; `some none` is Python's `None`. -/
def backtrack (s : CCState) (choice : List Slot → Option Slot) :
    Nat → Assignment → Option (Option Assignment)
  | 0, _ => none
  | n + 1, asg =>
    if assignment_complete s.crossword asg then
      match consistent s.crossword asg with
      | some true => some (some asg)
      | some false => some none
      | none => none
    else
      match select_unassigned_variable s asg choice with
      | none => none
      | some v =>
        match order_domain_values s v asg with
        | none => none
        | some values => tryValues (fun a => backtrack s choice n a) asg v values

/-- `solve()`: node consistency, then `ac3` (its Boolean result is ignored,
only its domain narrowing is kept), then `backtrack` from the empty
assignment. -/
def solve (s : CCState) (choice : List Slot → Option Slot) (fuel : Nat) :
    Option (Option Assignment) :=
  let s1 := enforce_node_consistency s
  match ac3F fuel s1 none with
  | none => none
  | some none => none
  | some (some (_, s2)) => backtrack s2 choice fuel []

/-- An ACROSS slot of length 2 at the origin. -/
def slotA : Slot := { i := 0, j := 0, length := 2, down := false }

/-- A DOWN slot of length 2 crossing `slotA` at their first letters. -/
def slotB : Slot := { i := 0, j := 0, length := 2, down := true }

/-- A two-slot crossword: `slotA` and `slotB` overlap at index 0 of each. -/
def crossAB : Crossword :=
  { vars := [slotA, slotB]
  , words := [['a', 'b'], ['b', 'b'], ['a', 'c']]
  , overlapsData := [((slotA, slotB), (0, 0)), ((slotB, slotA), (0, 0))] }

/-- An isolated slot of length 1. -/
def slotC : Slot := { i := 5, j := 5, length := 1, down := false }

/-- A one-slot crossword with no overlaps and vocabulary `{"a"}`. -/
def crossSingle : Crossword :=
  { vars := [slotC], words := [['a']], overlapsData := [] }

/-- Total number of candidate words in the domain store (the potential that
AC-3 strictly decreases whenever a revision occurs). -/
def domSum (l : List (Slot × List Word)) : Nat := (l.map (fun p => p.2.length)).sum

/-- Upper bound on the number of arcs one revision can enqueue: the largest
neighbor count among the domain-store keys. -/
def maxDeg (s : CCState) : Nat :=
  ((keysOf s.domains).map (fun x => (neighbors s.crossword x).length)).foldr Nat.max 0

/-- Worklist measure for the AC-3 loop: it strictly decreases at every
iteration. -/
def ac3Measure (s : CCState) (q : List (Slot × Slot)) : Nat :=
  (maxDeg s + 1) * domSum s.domains + q.length

theorem getDomain?_setDomain_self (x : Slot) (d : List Word)
    (l : List (Slot × List Word)) (d0 : List Word) (h : getDomain? l x = some d0) :
    getDomain? (setDomain x d l) x = some d := by
  induction l with
  | nil => simp [getDomain?] at h
  | cons p rest ih =>
    obtain ⟨k, dk⟩ := p
    by_cases hk : k = x
    · subst hk; simp [setDomain, getDomain?]
    · simp only [getDomain?, if_neg hk] at h
      simpa [setDomain, hk, getDomain?] using ih h

theorem getDomain?_setDomain_ne (x z : Slot) (d : List Word)
    (l : List (Slot × List Word)) (hz : z ≠ x) :
    getDomain? (setDomain x d l) z = getDomain? l z := by
  induction l with
  | nil => simp [setDomain]
  | cons p rest ih =>
    obtain ⟨k, dk⟩ := p
    by_cases hk : k = x
    · subst hk
      have hkz : ¬ k = z := fun h => hz h.symm
      simp [setDomain, getDomain?, hkz]
    · simp [setDomain, hk, getDomain?, ih]

theorem setDomain_mem (x : Slot) (d : List Word) (l : List (Slot × List Word))
    (p : Slot × List Word) (h : p ∈ setDomain x d l) : p = (x, d) ∨ p ∈ l := by
  induction l with
  | nil => simp [setDomain] at h
  | cons q rest ih =>
    obtain ⟨k, dk⟩ := q
    simp only [setDomain] at h
    split at h
    · rcases List.mem_cons.mp h with h1 | h1
      · exact Or.inl h1
      · exact Or.inr (List.mem_cons_of_mem _ h1)
    · rcases List.mem_cons.mp h with h1 | h1
      · exact Or.inr (List.mem_cons.mpr (Or.inl h1))
      · rcases ih h1 with h2 | h2
        · exact Or.inl h2
        · exact Or.inr (List.mem_cons_of_mem _ h2)

theorem getDomain?_mem (l : List (Slot × List Word)) (x : Slot) (d : List Word)
    (h : getDomain? l x = some d) : (x, d) ∈ l := by
  induction l with
  | nil => simp [getDomain?] at h
  | cons p rest ih =>
    obtain ⟨k, dk⟩ := p
    simp only [getDomain?] at h
    split at h
    · rename_i hk
      rcases Option.some.inj h with h1
      subst h1; subst hk
      exact List.mem_cons_self _ _
    · exact List.mem_cons_of_mem _ (ih h)

theorem keysOf_setDomain (x : Slot) (d : List Word) (l : List (Slot × List Word)) :
    keysOf (setDomain x d l) = keysOf l := by
  induction l with
  | nil => simp [setDomain]
  | cons p rest ih =>
    obtain ⟨k, dk⟩ := p
    by_cases hk : k = x
    · subst hk; simp [setDomain, keysOf]
    · simp only [setDomain, if_neg hk]
      simpa [keysOf] using ih

theorem getDomain?_mem_keys (l : List (Slot × List Word)) (x : Slot) (d : List Word)
    (h : getDomain? l x = some d) : x ∈ keysOf l := by
  have := getDomain?_mem l x d h
  exact List.mem_map_of_mem Prod.fst this

theorem domSum_setDomain (x : Slot) (d : List Word) (l : List (Slot × List Word))
    (dx : List Word) (h : getDomain? l x = some dx) :
    domSum (setDomain x d l) + dx.length = domSum l + d.length := by
  induction l with
  | nil => simp [getDomain?] at h
  | cons p rest ih =>
    obtain ⟨k, dk⟩ := p
    simp only [getDomain?] at h
    split at h
    · rename_i hk
      rcases Option.some.inj h with h1
      subst h1
      simp [setDomain, hk, domSum]
      omega
    · rename_i hk
      have := ih h
      simp only [setDomain, if_neg hk]
      simp [domSum] at this ⊢
      omega

theorem getDomain?_map (f : Slot → List Word → List Word)
    (l : List (Slot × List Word)) (v : Slot) :
    getDomain? (l.map (fun p => (p.1, f p.1 p.2))) v = (getDomain? l v).map (f v) := by
  induction l with
  | nil => simp [getDomain?]
  | cons p rest ih =>
    obtain ⟨k, dk⟩ := p
    by_cases hk : k = v
    · subst hk; simp [getDomain?]
    · simp [getDomain?, hk, ih]

theorem buildNewDomain_le (xi yi : Nat) (dy : List Word) :
    ∀ dx nd, buildNewDomain xi yi dy dx = some nd → nd.length ≤ dx.length := by
  intro dx
  induction dx with
  | nil =>
    intro nd h
    simp only [buildNewDomain, Option.some.injEq] at h
    subst h; simp
  | cons wx rest ih =>
    intro nd h
    simp only [buildNewDomain] at h
    cases hc : compatFilter xi yi wx dy with
    | none => rw [hc] at h; simp at h
    | some compat =>
      rw [hc] at h
      cases hb : buildNewDomain xi yi dy rest with
      | none => rw [hb] at h; simp at h
      | some others =>
        rw [hb] at h
        simp only [Option.some.injEq] at h
        subst h
        have hlen := ih others hb
        split <;> simp only [List.length_cons] <;> omega

theorem revise_eq (s : CCState) (x y : Slot) (s' : CCState) (c : Bool)
    (h : revise s x y = some (s', c)) :
    ∃ dx dy xi yi nd,
      getDomain? s.domains x = some dx ∧ getDomain? s.domains y = some dy ∧
      overlap? s.crossword x y = some (xi, yi) ∧
      buildNewDomain xi yi dy dx = some nd ∧
      s' = { crossword := s.crossword, domains := setDomain x nd s.domains } ∧
      c = (nd.length != dx.length) := by
  simp only [revise] at h
  split at h
  · simp at h
  · rename_i dx hdx
    split at h
    · simp at h
    · rename_i dy hdy
      split at h
      · simp at h
      · rename_i xi yi hov
        split at h
        · simp at h
        · rename_i nd hb
          simp only [Option.some.injEq, Prod.mk.injEq] at h
          exact ⟨dx, dy, xi, yi, nd, hdx, hdy, hov, hb, h.1.symm, h.2.symm⟩

theorem revise_crossword (s : CCState) (x y : Slot) (s' : CCState) (c : Bool)
    (h : revise s x y = some (s', c)) : s'.crossword = s.crossword := by
  obtain ⟨dx, dy, xi, yi, nd, _, _, _, _, hs, _⟩ := revise_eq s x y s' c h
  rw [hs]

theorem revise_keys (s : CCState) (x y : Slot) (s' : CCState) (c : Bool)
    (h : revise s x y = some (s', c)) : keysOf s'.domains = keysOf s.domains := by
  obtain ⟨dx, dy, xi, yi, nd, _, _, _, _, hs, _⟩ := revise_eq s x y s' c h
  rw [hs]; exact keysOf_setDomain x nd s.domains

theorem revise_maxDeg (s : CCState) (x y : Slot) (s' : CCState) (c : Bool)
    (h : revise s x y = some (s', c)) : maxDeg s' = maxDeg s := by
  unfold maxDeg
  rw [revise_keys s x y s' c h, revise_crossword s x y s' c h]

theorem revise_domSum_true (s : CCState) (x y : Slot) (s' : CCState)
    (h : revise s x y = some (s', true)) : domSum s'.domains < domSum s.domains := by
  obtain ⟨dx, dy, xi, yi, nd, hdx, _, _, hb, hs, hc⟩ := revise_eq s x y s' true h
  have hle := buildNewDomain_le xi yi dy dx nd hb
  have hne : nd.length ≠ dx.length := by
    by_contra heq
    rw [heq] at hc
    simp at hc
  have hsum := domSum_setDomain x nd s.domains dx hdx
  rw [hs]
  simp only
  omega

theorem revise_domSum_false (s : CCState) (x y : Slot) (s' : CCState)
    (h : revise s x y = some (s', false)) : domSum s'.domains = domSum s.domains := by
  obtain ⟨dx, dy, xi, yi, nd, hdx, _, _, hb, hs, hc⟩ := revise_eq s x y s' false h
  have heq : nd.length = dx.length := by
    by_contra hne
    rw [(by simpa using Ne.intro hne : (nd.length != dx.length) = true)] at hc
    simp at hc
  have hsum := domSum_setDomain x nd s.domains dx hdx
  rw [hs]
  simp only
  omega

theorem le_foldr_max (f : Slot → Nat) (l : List Slot) (x : Slot) (hx : x ∈ l) :
    f x ≤ (l.map f).foldr Nat.max 0 := by
  induction l with
  | nil => simp at hx
  | cons a rest ih =>
    rcases List.mem_cons.mp hx with h | h
    · subst h
      simp only [List.map_cons, List.foldr_cons]
      exact Nat.le_max_left _ _
    · simp only [List.map_cons, List.foldr_cons]
      exact le_trans (ih h) (Nat.le_max_right _ _)

theorem neighbors_le_maxDeg (s : CCState) (x : Slot) (hx : x ∈ keysOf s.domains) :
    (neighbors s.crossword x).length ≤ maxDeg s :=
  le_foldr_max (fun z => (neighbors s.crossword z).length) (keysOf s.domains) x hx

theorem ac3LoopF_measure_total :
    ∀ n s q, ac3Measure s q < n → ∃ r, ac3LoopF n s q = some r := by
  intro n
  induction n with
  | zero => intro s q h; omega
  | succ n ih =>
    intro s q hm
    match q with
    | [] => exact ⟨some (true, s), rfl⟩
    | (x, y) :: rest =>
      cases hr : revise s x y with
      | none => exact ⟨none, by simp [ac3LoopF, hr]⟩
      | some p =>
        obtain ⟨s', c⟩ := p
        cases c with
        | true =>
          cases hd : getDomain? s'.domains x with
          | none => exact ⟨none, by simp [ac3LoopF, hr, hd]⟩
          | some dx' =>
            by_cases hz : dx'.length = 0
            · exact ⟨some (false, s'), by simp [ac3LoopF, hr, hd, hz]⟩
            · have hK : maxDeg s' = maxDeg s := revise_maxDeg s x y s' true hr
              have hD : domSum s'.domains < domSum s.domains := revise_domSum_true s x y s' hr
              have hxk : x ∈ keysOf s'.domains := getDomain?_mem_keys s'.domains x dx' hd
              have hA : (neighbors s'.crossword x).length ≤ maxDeg s' :=
                neighbors_le_maxDeg s' x hxk
              have hmul : (maxDeg s + 1) * (domSum s'.domains + 1) ≤
                  (maxDeg s + 1) * domSum s.domains :=
                Nat.mul_le_mul_left _ (by omega)
              have hmul' : (maxDeg s + 1) * domSum s'.domains + (maxDeg s + 1) ≤
                  (maxDeg s + 1) * domSum s.domains := by
                calc (maxDeg s + 1) * domSum s'.domains + (maxDeg s + 1)
                    = (maxDeg s + 1) * (domSum s'.domains + 1) := by ring
                  _ ≤ (maxDeg s + 1) * domSum s.domains := hmul
              have hm' : ac3Measure s' (rest ++ (neighbors s'.crossword x).map (fun nb => (x, nb))) < n := by
                simp only [ac3Measure, List.length_append, List.length_map, List.length_cons, hK] at hm ⊢
                rw [hK] at hA
                omega
              obtain ⟨r, hrec⟩ := ih s' _ hm'
              exact ⟨r, by simp [ac3LoopF, hr, hd, hz]; exact hrec⟩
        | false =>
          have hK : maxDeg s' = maxDeg s := revise_maxDeg s x y s' false hr
          have hD : domSum s'.domains = domSum s.domains := revise_domSum_false s x y s' hr
          have hm' : ac3Measure s' rest < n := by
            simp only [ac3Measure, List.length_cons, hK, hD] at hm ⊢
            omega
          obtain ⟨r, hrec⟩ := ih s' rest hm'
          exact ⟨r, by simp [ac3LoopF, hr]; exact hrec⟩

theorem ac3LoopF_fin (s : CCState) (q : List (Slot × Slot)) :
    ∃ n r, ac3LoopF n s q = some r :=
  ⟨ac3Measure s q + 1, ac3LoopF_measure_total (ac3Measure s q + 1) s q (Nat.lt_succ_self _)⟩

theorem ac3LoopF_nil (n : Nat) (s : CCState) :
    ac3LoopF n s [] = some (some (true, s)) := by
  cases n <;> rfl

theorem ac3LoopF_step_raise (n : Nat) (s : CCState) (x y : Slot)
    (rest : List (Slot × Slot)) (h : revise s x y = none) :
    ac3LoopF (n + 1) s ((x, y) :: rest) = some none := by
  simp [ac3LoopF, h]

theorem ac3LoopF_step_keyerr (n : Nat) (s s' : CCState) (x y : Slot)
    (rest : List (Slot × Slot)) (h : revise s x y = some (s', true))
    (hd : getDomain? s'.domains x = none) :
    ac3LoopF (n + 1) s ((x, y) :: rest) = some none := by
  simp [ac3LoopF, h, hd]

theorem ac3LoopF_step_empty (n : Nat) (s s' : CCState) (x y : Slot)
    (rest : List (Slot × Slot)) (dx' : List Word) (h : revise s x y = some (s', true))
    (hd : getDomain? s'.domains x = some dx') (hz : dx'.length = 0) :
    ac3LoopF (n + 1) s ((x, y) :: rest) = some (some (false, s')) := by
  simp [ac3LoopF, h, hd, hz]

theorem ac3LoopF_step_requeue (n : Nat) (s s' : CCState) (x y : Slot)
    (rest : List (Slot × Slot)) (dx' : List Word) (h : revise s x y = some (s', true))
    (hd : getDomain? s'.domains x = some dx') (hz : dx'.length ≠ 0) :
    ac3LoopF (n + 1) s ((x, y) :: rest) =
      ac3LoopF n s' (rest ++ (neighbors s'.crossword x).map (fun nb => (x, nb))) := by
  simp [ac3LoopF, h, hd, hz]

theorem ac3LoopF_step_norevision (n : Nat) (s s' : CCState) (x y : Slot)
    (rest : List (Slot × Slot)) (h : revise s x y = some (s', false)) :
    ac3LoopF (n + 1) s ((x, y) :: rest) = ac3LoopF n s' rest := by
  simp [ac3LoopF, h]

theorem ac3LoopF_nonempty :
    ∀ n s q s', (∀ p ∈ s.domains, p.2 ≠ ([] : List Word)) →
      ac3LoopF n s q = some (some (true, s')) →
      ∀ p ∈ s'.domains, p.2 ≠ ([] : List Word) := by
  intro n
  induction n with
  | zero =>
    intro s q s' hinv h
    match q with
    | [] =>
      rw [ac3LoopF_nil] at h
      simp only [Option.some.injEq, Prod.mk.injEq, true_and] at h
      rw [← h]; exact hinv
    | _ :: _ => simp [ac3LoopF] at h
  | succ n ih =>
    intro s q s' hinv h
    match q with
    | [] =>
      rw [ac3LoopF_nil] at h
      simp only [Option.some.injEq, Prod.mk.injEq, true_and] at h
      rw [← h]; exact hinv
    | (x, y) :: rest =>
      cases hr : revise s x y with
      | none => rw [ac3LoopF_step_raise n s x y rest hr] at h; simp at h
      | some p =>
        obtain ⟨s'', c⟩ := p
        obtain ⟨dx, dy, xi, yi, nd, hdx, hdy, hov, hb, hs, hc⟩ := revise_eq s x y s'' c hr
        cases c with
        | true =>
          cases hd : getDomain? s''.domains x with
          | none => rw [ac3LoopF_step_keyerr n s s'' x y rest hr hd] at h; simp at h
          | some dx' =>
            have hnd : getDomain? s''.domains x = some nd := by
              rw [hs]; exact getDomain?_setDomain_self x nd s.domains dx hdx
            have hdx'nd : dx' = nd := by
              rw [hd] at hnd; exact Option.some.inj hnd
            by_cases hz : dx'.length = 0
            · rw [ac3LoopF_step_empty n s s'' x y rest dx' hr hd hz] at h; simp at h
            · rw [ac3LoopF_step_requeue n s s'' x y rest dx' hr hd hz] at h
              have hinv' : ∀ p ∈ s''.domains, p.2 ≠ ([] : List Word) := by
                intro p hp
                rw [hs] at hp
                rcases setDomain_mem x nd s.domains p hp with h1 | h1
                · rw [h1]
                  show nd ≠ ([] : List Word)
                  intro hcon
                  apply hz
                  rw [hdx'nd, hcon]
                  rfl
                · exact hinv p h1
              exact ih s'' _ s' hinv' h
        | false =>
          rw [ac3LoopF_step_norevision n s s'' x y rest hr] at h
          have hlen : nd.length = dx.length := by
            by_contra hne
            rw [(by simpa using Ne.intro hne : (nd.length != dx.length) = true)] at hc
            simp at hc
          have hdxne : dx ≠ ([] : List Word) := hinv (x, dx) (getDomain?_mem s.domains x dx hdx)
          have hndne : nd ≠ ([] : List Word) := by
            intro hcon
            apply hdxne
            rw [hcon] at hlen
            exact List.eq_nil_of_length_eq_zero hlen.symm
          have hinv' : ∀ p ∈ s''.domains, p.2 ≠ ([] : List Word) := by
            intro p hp
            rw [hs] at hp
            rcases setDomain_mem x nd s.domains p hp with h1 | h1
            · rw [h1]; exact hndne
            · exact hinv p h1
          exact ih s'' rest s' hinv' h

/-- A one-slot state with the non-empty domain `{"a"}`. -/
def stateSingleA : CCState := { crossword := crossSingle, domains := [(slotC, [['a']])] }

/-- A one-slot state whose only domain is already empty. -/
def stateSingleEmpty : CCState := { crossword := crossSingle, domains := [(slotC, [])] }

/-- A two-slot state on `crossAB` in which revising `slotA` against `slotB`
removes `"bb"` (no word of `slotB`'s domain starts with `b`). -/
def stateAB : CCState :=
  { crossword := crossAB
  , domains := [(slotA, [['a', 'b'], ['b', 'b']]), (slotB, [['a', 'c']])] }

/-- The state after `revise(slotA, slotB)` on `stateAB`. -/
def stateAB' : CCState :=
  { crossword := crossAB
  , domains := [(slotA, [['a', 'b']]), (slotB, [['a', 'c']])] }

/-- **C3** (counterexample): on a state whose only domain is already empty
(and with no arcs to process), `ac3` returns `True` even though a domain is
empty after propagation — refuting the claim's "including domains that were
already empty when ac3 was entered". -/
theorem ac3_true_despite_empty_domain :
    ac3F 1 stateSingleEmpty none = some (some (true, stateSingleEmpty)) ∧
    getDomain? stateSingleEmpty.domains slotC = some [] := by decide

/-- **C3** (amended): provided every domain is non-empty when `ac3` is
entered, `ac3` returning `True` implies every domain in the resulting
domain store is non-empty. -/
theorem ac3_true_all_domains_nonempty (n : Nat) (s : CCState)
    (arcs : Option (List (Slot × Slot))) (s' : CCState)
    (hinv : ∀ p ∈ s.domains, p.2 ≠ ([] : List Word))
    (h : ac3F n s arcs = some (some (true, s'))) :
    ∀ p ∈ s'.domains, p.2 ≠ ([] : List Word) := by
  unfold ac3F at h
  exact ac3LoopF_nonempty n s _ s' hinv h

theorem ac3_true_all_domains_nonempty_witness :
    (∀ p ∈ stateSingleA.domains, p.2 ≠ ([] : List Word)) ∧
    ac3F 1 stateSingleA none = some (some (true, stateSingleA)) ∧
    (∀ p ∈ stateSingleA.domains, p.2 ≠ ([] : List Word)) :=
  ⟨by decide, by decide,
    ac3_true_all_domains_nonempty 1 stateSingleA none stateSingleA (by decide) (by decide)⟩

/-- **C7**: the AC-3 worklist is processed FIFO — the head arc `(x, y)` is
popped and revised; if the revision empties `x`'s domain the loop returns
failure immediately; if it shrinks it to a non-empty set, one arc
`(x, neighbor)` per neighbor of `x` is appended to the back of the worklist;
without a revision the loop continues on the remaining worklist. -/
theorem ac3_fifo_step (n : Nat) (s s' : CCState) (x y : Slot)
    (rest : List (Slot × Slot)) (c : Bool) (dx' : List Word)
    (h : revise s x y = some (s', c)) (hd : getDomain? s'.domains x = some dx') :
    (c = true → dx'.length = 0 →
      ac3LoopF (n + 1) s ((x, y) :: rest) = some (some (false, s'))) ∧
    (c = true → dx'.length ≠ 0 →
      ac3LoopF (n + 1) s ((x, y) :: rest) =
        ac3LoopF n s' (rest ++ (neighbors s'.crossword x).map (fun nb => (x, nb)))) ∧
    (c = false → ac3LoopF (n + 1) s ((x, y) :: rest) = ac3LoopF n s' rest) := by
  refine ⟨?_, ?_, ?_⟩
  · intro hc hz
    subst hc
    exact ac3LoopF_step_empty n s s' x y rest dx' h hd hz
  · intro hc hz
    subst hc
    exact ac3LoopF_step_requeue n s s' x y rest dx' h hd hz
  · intro hc
    subst hc
    exact ac3LoopF_step_norevision n s s' x y rest h

theorem ac3_fifo_step_witness :
    revise stateAB slotA slotB = some (stateAB', true) ∧
    getDomain? stateAB'.domains slotA = some [['a', 'b']] ∧
    ((true = true → ([['a', 'b']] : List Word).length = 0 →
        ac3LoopF 3 stateAB [(slotA, slotB)] = some (some (false, stateAB'))) ∧
     (true = true → ([['a', 'b']] : List Word).length ≠ 0 →
        ac3LoopF 3 stateAB [(slotA, slotB)] =
          ac3LoopF 2 stateAB'
            ([] ++ (neighbors stateAB'.crossword slotA).map (fun nb => (slotA, nb)))) ∧
     (true = false → ac3LoopF 3 stateAB [(slotA, slotB)] = ac3LoopF 2 stateAB' [])) :=
  ⟨by decide, by decide,
    ac3_fifo_step 2 stateAB stateAB' slotA slotB [] true [['a', 'b']]
      (by decide) (by decide)⟩

/-- **C9**: `ac3` terminates on every input — for every state and every
initial worklist (supplied or default) some finite fuel, i.e. some finite
number of loop iterations, completes the loop. -/
theorem ac3_terminates (s : CCState) (arcs : Option (List (Slot × Slot))) :
    ∃ n r, ac3F n s arcs = some r := by
  unfold ac3F
  exact ac3LoopF_fin s _

theorem compatFilter_eq_filter (xi yi : Nat) (wx : Word) (dy : List Word)
    (hx : xi < wx.length) (hy : ∀ w ∈ dy, yi < w.length) :
    compatFilter xi yi wx dy = some (dy.filter (fun wy => wx.get? xi == wy.get? yi)) := by
  induction dy with
  | nil => simp [compatFilter]
  | cons wy rest ih =>
    have hwy : yi < wy.length := hy wy (List.mem_cons_self _ _)
    obtain ⟨cx, hcx⟩ : ∃ cx, wx.get? xi = some cx := ⟨wx.get ⟨xi, hx⟩, List.get?_eq_get hx⟩
    obtain ⟨cy, hcy⟩ : ∃ cy, wy.get? yi = some cy := ⟨wy.get ⟨yi, hwy⟩, List.get?_eq_get hwy⟩
    have ih' := ih (fun w hw => hy w (List.mem_cons_of_mem _ hw))
    simp only [compatFilter, hcx, hcy, ih', List.filter_cons]
    by_cases hc : cx = cy <;> simp [hc]

theorem buildNewDomain_eq_filter (xi yi : Nat) (dy : List Word) (dx : List Word)
    (hx : ∀ w ∈ dx, xi < w.length) (hy : ∀ w ∈ dy, yi < w.length) :
    buildNewDomain xi yi dy dx =
      some (dx.filter (fun wx => dy.any (fun wy => wx.get? xi == wy.get? yi))) := by
  induction dx with
  | nil => simp [buildNewDomain]
  | cons wx rest ih =>
    have hwx : xi < wx.length := hx wx (List.mem_cons_self _ _)
    have ih' := ih (fun w hw => hx w (List.mem_cons_of_mem _ hw))
    simp only [buildNewDomain, compatFilter_eq_filter xi yi wx dy hwx hy, ih',
      List.filter_cons]
    by_cases hk : dy.any (fun wy => wx.get? xi == wy.get? yi)
    · have hne : (dy.filter (fun wy => wx.get? xi == wy.get? yi)).length ≠ 0 := by
        intro hzero
        have hnil := List.eq_nil_of_length_eq_zero hzero
        obtain ⟨w, hw, hpw⟩ := List.any_eq_true.mp hk
        have : w ∈ dy.filter (fun wy => wx.get? xi == wy.get? yi) :=
          List.mem_filter.mpr ⟨hw, hpw⟩
        rw [hnil] at this
        simp at this
      simp [hk, hne]
    · have hnil : dy.filter (fun wy => wx.get? xi == wy.get? yi) = [] := by
        rw [List.filter_eq_nil_iff]
        intro w hw
        intro hpw
        exact hk (List.any_eq_true.mpr ⟨w, hw, hpw⟩)
      simp [hk, hnil]

/-- **C6**: for a pair of slots with an overlap entry (and in-range overlap
indices), `revise(x, y)` succeeds and removes from `x`'s domain exactly the
words with no agreeing word in `y`'s domain at the overlap indices; the new
domain is never longer than the old, and the returned flag is true exactly
when the domain shrank. -/
theorem revise_spec (s : CCState) (x y : Slot) (xi yi : Nat) (dx dy : List Word)
    (hov : overlap? s.crossword x y = some (xi, yi))
    (hdx : getDomain? s.domains x = some dx)
    (hdy : getDomain? s.domains y = some dy)
    (hrx : ∀ w ∈ dx, xi < w.length)
    (hry : ∀ w ∈ dy, yi < w.length) :
    ∃ s' c, revise s x y = some (s', c) ∧
      getDomain? s'.domains x =
        some (dx.filter (fun wx => dy.any (fun wy => wx.get? xi == wy.get? yi))) ∧
      (dx.filter (fun wx => dy.any (fun wy => wx.get? xi == wy.get? yi))).length ≤ dx.length ∧
      (c = true ↔
        (dx.filter (fun wx => dy.any (fun wy => wx.get? xi == wy.get? yi))).length < dx.length) := by
  have hb := buildNewDomain_eq_filter xi yi dy dx hrx hry
  have hrev : revise s x y = some
      ({ crossword := s.crossword
       , domains := setDomain x (dx.filter (fun wx => dy.any (fun wy => wx.get? xi == wy.get? yi))) s.domains }
      , ((dx.filter (fun wx => dy.any (fun wy => wx.get? xi == wy.get? yi))).length != dx.length)) := by
    simp [revise, hdx, hdy, hov, hb]
  refine ⟨_, _, hrev, ?_, ?_, ?_⟩
  · exact getDomain?_setDomain_self x _ s.domains dx hdx
  · exact List.length_filter_le _ _
  · have hle : (dx.filter (fun wx => dy.any (fun wy => wx.get? xi == wy.get? yi))).length ≤ dx.length :=
      List.length_filter_le _ _
    constructor
    · intro hcb
      have hne : (dx.filter (fun wx => dy.any (fun wy => wx.get? xi == wy.get? yi))).length ≠ dx.length := by
        simpa using hcb
      omega
    · intro hlt
      simpa using Nat.ne_of_lt hlt

theorem revise_spec_witness :
    overlap? stateAB.crossword slotA slotB = some (0, 0) ∧
    getDomain? stateAB.domains slotA = some [['a', 'b'], ['b', 'b']] ∧
    getDomain? stateAB.domains slotB = some [['a', 'c']] ∧
    (∃ s' c, revise stateAB slotA slotB = some (s', c) ∧
      getDomain? s'.domains slotA =
        some (([['a', 'b'], ['b', 'b']] : List Word).filter
          (fun wx => ([['a', 'c']] : List Word).any (fun wy => wx.get? 0 == wy.get? 0))) ∧
      (([['a', 'b'], ['b', 'b']] : List Word).filter
          (fun wx => ([['a', 'c']] : List Word).any (fun wy => wx.get? 0 == wy.get? 0))).length ≤
        ([['a', 'b'], ['b', 'b']] : List Word).length ∧
      (c = true ↔
        (([['a', 'b'], ['b', 'b']] : List Word).filter
            (fun wx => ([['a', 'c']] : List Word).any (fun wy => wx.get? 0 == wy.get? 0))).length <
          ([['a', 'b'], ['b', 'b']] : List Word).length)) :=
  ⟨by decide, by decide, by decide,
    revise_spec stateAB slotA slotB 0 0 [['a', 'b'], ['b', 'b']] [['a', 'c']]
      (by decide) (by decide) (by decide) (by decide) (by decide)⟩

/-- **C10**: `revise(x, y)` modifies only `x`'s entry of the domain store —
the crossword (slot model) is unchanged, `y`'s domain is unchanged, and so is
the domain of every slot other than `x`. -/
theorem revise_frame (s s' : CCState) (x y : Slot) (c : Bool)
    (h : revise s x y = some (s', c)) (hyx : y ≠ x) :
    s'.crossword = s.crossword ∧
    getDomain? s'.domains y = getDomain? s.domains y ∧
    (∀ z, z ≠ x → getDomain? s'.domains z = getDomain? s.domains z) := by
  obtain ⟨dx, dy, xi, yi, nd, hdx, hdy, hov, hb, hs, hc⟩ := revise_eq s x y s' c h
  subst hs
  refine ⟨rfl, ?_, ?_⟩
  · exact getDomain?_setDomain_ne x y nd s.domains hyx
  · intro z hz
    exact getDomain?_setDomain_ne x z nd s.domains hz

theorem revise_frame_witness :
    revise stateAB slotA slotB = some (stateAB', true) ∧ slotB ≠ slotA ∧
    (stateAB'.crossword = stateAB.crossword ∧
     getDomain? stateAB'.domains slotB = getDomain? stateAB.domains slotB ∧
     (∀ z, z ≠ slotA → getDomain? stateAB'.domains z = getDomain? stateAB.domains z)) :=
  ⟨by decide, by decide,
    revise_frame stateAB stateAB' slotA slotB true (by decide) (by decide)⟩

/-- A one-slot state whose domain holds a fitting and a non-fitting word. -/
def stateMix : CCState :=
  { crossword := crossSingle, domains := [(slotC, [['a'], ['a', 'b']])] }

/-- **C8**: `enforce_node_consistency` leaves the crossword untouched and
replaces each slot's domain by exactly the subset of its previous domain
whose word lengths equal the slot's length; consequently every remaining
candidate is length-compatible with its slot. -/
theorem enforce_node_consistency_spec (s : CCState) (v : Slot) :
    (enforce_node_consistency s).crossword = s.crossword ∧
    getDomain? (enforce_node_consistency s).domains v =
      (getDomain? s.domains v).map (fun d => d.filter (fun w => w.length == v.length)) ∧
    (∀ d w, getDomain? (enforce_node_consistency s).domains v = some d → w ∈ d →
      w.length = v.length) := by
  have hmap := getDomain?_map (fun k d => d.filter (fun w => w.length == k.length)) s.domains v
  refine ⟨rfl, hmap, ?_⟩
  intro d w hd hw
  simp only [enforce_node_consistency] at hd
  rw [hmap] at hd
  cases hgd : getDomain? s.domains v with
  | none => rw [hgd] at hd; simp at hd
  | some d0 =>
    rw [hgd] at hd
    simp only [Option.map_some', Option.some.injEq] at hd
    subst hd
    have := List.mem_filter.mp hw
    simpa using this.2

theorem enforce_node_consistency_spec_witness :
    getDomain? (enforce_node_consistency stateMix).domains slotC = some [['a']] ∧
    (['a'] : Word) ∈ ([['a']] : List Word) ∧ (['a'] : Word).length = slotC.length :=
  ⟨by decide, by decide,
    (enforce_node_consistency_spec stateMix slotC).2.2 [['a']] ['a'] (by decide) (by decide)⟩

/-- **C1** (code evaluation at the failing input): on the partial assignment
`{slotA : "ab"}` in a crossword where `slotA`'s neighbor `slotB` is
unassigned, `consistent` raises a KeyError (embedded `none`) at
`assignment[neighbor]` instead of skipping the unassigned neighbor and
returning a Boolean. -/
theorem consistent_raises_on_partial_assignment :
    consistent crossAB [(slotA, ['a', 'b'])] = none ∧
    slotB ∈ neighbors crossAB slotA ∧
    lookupWord [(slotA, ['a', 'b'])] slotB = none ∧
    (['a', 'b'] : Word).length = slotA.length := by decide

/-- **C4** (code evaluation): `consistent` is true on the empty assignment
and on a single-slot assignment of matching length whose slot has no
neighbor, but raises (`none`) on a single-slot assignment of matching length
whose slot has an unassigned neighbor — refuting "regardless of whether that
slot has neighbors". -/
theorem consistent_base_cases :
    consistent crossAB [] = some true ∧
    consistent crossSingle [(slotC, ['a'])] = some true ∧
    (['a'] : Word).length = slotC.length ∧
    consistent crossAB [(slotA, ['a', 'b'])] = none ∧
    (['a', 'b'] : Word).length = slotA.length := by decide

/-- The slots and state showing the degree tie-break bug: `slotX` and
`slotY` tie on minimal domain size 1, `slotX` is isolated (degree 0) while
`slotY` has degree 1. -/
def slotX : Slot := { i := 0, j := 0, length := 1, down := false }

/-- See `slotX`. -/
def slotY : Slot := { i := 1, j := 0, length := 1, down := false }

/-- See `slotX`: the third slot, neighbor of `slotY`. -/
def slotZ : Slot := { i := 1, j := 0, length := 1, down := true }

/-- Three slots: `slotY` and `slotZ` overlap; `slotX` is isolated. -/
def crossXYZ : Crossword :=
  { vars := [slotX, slotY, slotZ]
  , words := [['a'], ['b'], ['c'], ['d']]
  , overlapsData := [((slotY, slotZ), (0, 0)), ((slotZ, slotY), (0, 0))] }

/-- Domain sizes 1, 1, 2 for `slotX`, `slotY`, `slotZ`. -/
def stateXYZ : CCState :=
  { crossword := crossXYZ
  , domains := [(slotX, [['a']]), (slotY, [['b']]), (slotZ, [['c'], ['d']])] }

/-- **C2** (code evaluation at the failing input): with three unassigned
slots, `slotX` and `slotY` tied on minimal domain size but `slotX` of degree
0 and `slotY` of degree 1, the list handed to `random.choice` is exactly
`[slotX]` — the code restricts the MRV tie to *minimum* degree, so every
choice function returns the lowest-degree slot, contradicting the claimed
maximum-degree tie-break (which would return `slotY`). -/
theorem select_unassigned_variable_min_degree_bug :
    (∀ choice, select_unassigned_variable stateXYZ [] choice = choice [slotX]) ∧
    getDomain? stateXYZ.domains slotX = some [['a']] ∧
    getDomain? stateXYZ.domains slotY = some [['b']] ∧
    getDomain? stateXYZ.domains slotZ = some [['c'], ['d']] ∧
    (neighbors crossXYZ slotX).length = 0 ∧
    (neighbors crossXYZ slotY).length = 1 :=
  ⟨fun _ => rfl, by decide, by decide, by decide, by decide, by decide⟩

theorem checkNeighbors_cons_true (cw : Crossword) (asg : Assignment) (var : Slot)
    (word : Word) (nb0 : Slot) (rest : List Slot)
    (h : checkNeighbors cw asg var word (nb0 :: rest) = some true) :
    ∃ nbw vi ni ch, lookupWord asg nb0 = some nbw ∧ overlap? cw var nb0 = some (vi, ni) ∧
      word.get? vi = some ch ∧ nbw.get? ni = some ch ∧
      checkNeighbors cw asg var word rest = some true := by
  simp only [checkNeighbors] at h
  split at h
  · simp at h
  · rename_i nbw hlw
    split at h
    · simp at h
    · rename_i vi ni hov
      split at h
      · rename_i c1 c2 hg1 hg2
        split at h
        · rename_i hc
          exact ⟨nbw, vi, ni, c1, hlw, hov, hg1, by rw [hg2, hc], h⟩
        · simp at h
      · simp at h

theorem checkNeighbors_true (cw : Crossword) (asg : Assignment) (var : Slot) (word : Word) :
    ∀ nbs, checkNeighbors cw asg var word nbs = some true →
      ∀ nb ∈ nbs, ∃ nbw vi ni ch,
        lookupWord asg nb = some nbw ∧ overlap? cw var nb = some (vi, ni) ∧
        word.get? vi = some ch ∧ nbw.get? ni = some ch := by
  intro nbs
  induction nbs with
  | nil =>
    intro h nb hnb
    simp at hnb
  | cons nb0 rest ih =>
    intro h nb hnb
    obtain ⟨nbw, vi, ni, ch, hlw, hov, hg1, hg2, hrest⟩ :=
      checkNeighbors_cons_true cw asg var word nb0 rest h
    rcases List.mem_cons.mp hnb with h1 | h1
    · subst h1
      exact ⟨nbw, vi, ni, ch, hlw, hov, hg1, hg2⟩
    · exact ih hrest nb h1

theorem consistentAux_cons_true (cw : Crossword) (asg : Assignment) (present : List Word)
    (var : Slot) (word : Word) (rest : List (Slot × Word))
    (h : consistentAux cw asg present ((var, word) :: rest) = some true) :
    present.any (fun w => w == word) = false ∧ word.length = var.length ∧
    checkNeighbors cw asg var word (neighbors cw var) = some true ∧
    consistentAux cw asg (present ++ [word]) rest = some true := by
  simp only [consistentAux] at h
  split at h
  · simp at h
  · rename_i hcond
    have hcond' : present.any (fun w => w == word) = false ∧ word.length = var.length := by
      have hcond2 : ((present.any fun w => w == word) || !(word.length == var.length)) = false :=
        Bool.eq_false_iff.mpr hcond
      rcases Bool.or_eq_false_iff.mp hcond2 with ⟨h1, h2⟩
      exact ⟨h1, by simpa using h2⟩
    split at h
    · simp at h
    · simp at h
    · rename_i hcn
      exact ⟨hcond'.1, hcond'.2, hcn, h⟩

theorem consistentAux_true_props (cw : Crossword) (asg : Assignment) :
    ∀ items present, consistentAux cw asg present items = some true →
      ((items.map Prod.snd).Nodup ∧ (∀ w ∈ items.map Prod.snd, w ∉ present)) ∧
      (∀ p ∈ items, (p.2 : Word).length = p.1.length ∧
        checkNeighbors cw asg p.1 p.2 (neighbors cw p.1) = some true) := by
  intro items
  induction items with
  | nil =>
    intro present h
    refine ⟨⟨by simp, by simp⟩, by simp⟩
  | cons pr rest ih =>
    obtain ⟨var, word⟩ := pr
    intro present h
    obtain ⟨hany, hlen, hcn, hrec⟩ := consistentAux_cons_true cw asg present var word rest h
    obtain ⟨⟨hnd, hnp⟩, hprops⟩ := ih (present ++ [word]) hrec
    have hword_notin_present : word ∉ present := by
      intro hmem
      have := (List.any_eq_false.mp hany) word hmem
      simp at this
    refine ⟨⟨?_, ?_⟩, ?_⟩
    · rw [List.map_cons]
      refine List.nodup_cons.mpr ⟨?_, hnd⟩
      intro hmem
      have := hnp word hmem
      simp at this
    · intro w hw
      rw [List.map_cons] at hw
      rcases List.mem_cons.mp hw with h1 | h1
      · subst h1
        exact hword_notin_present
      · intro hmem
        have := hnp w h1
        simp at this
        exact this.1 hmem
    · intro p hp
      rcases List.mem_cons.mp hp with h1 | h1
      · subst h1
        exact ⟨hlen, hcn⟩
      · exact hprops p h1

theorem tryValues_some (rec : Assignment → Option (Option Assignment)) (asg : Assignment)
    (v : Slot) :
    ∀ ws a, tryValues rec asg v ws = some (some a) →
      ∃ w ∈ ws, rec (setAssign v w asg) = some (some a) := by
  intro ws
  induction ws with
  | nil =>
    intro a h
    simp [tryValues] at h
  | cons w rest ih =>
    intro a h
    simp only [tryValues] at h
    split at h
    · simp at h
    · rename_i a' hr
      have : a' = a := by simpa using h
      subst this
      exact ⟨w, List.mem_cons_self _ _, hr⟩
    · rename_i hr
      obtain ⟨w', hw', h'⟩ := ih a h
      exact ⟨w', List.mem_cons_of_mem _ hw', h'⟩

theorem backtrack_sound (s : CCState) (choice : List Slot → Option Slot) :
    ∀ n asg a, backtrack s choice n asg = some (some a) →
      assignment_complete s.crossword a = true ∧ consistent s.crossword a = some true := by
  intro n
  induction n with
  | zero =>
    intro asg a h
    simp [backtrack] at h
  | succ n ih =>
    intro asg a h
    simp only [backtrack] at h
    split at h
    · rename_i hcomp
      split at h
      · rename_i hcons
        have : asg = a := by simpa using h
        subst this
        exact ⟨by simpa using hcomp, hcons⟩
      · simp at h
      · simp at h
    · split at h
      · simp at h
      · rename_i v hsel
        split at h
        · simp at h
        · rename_i values hord
          obtain ⟨w, hw, hrec⟩ := tryValues_some _ asg v values a h
          exact ih _ a hrec

theorem ac3LoopF_crossword :
    ∀ n s q b s', ac3LoopF n s q = some (some (b, s')) → s'.crossword = s.crossword := by
  intro n
  induction n with
  | zero =>
    intro s q b s' h
    match q with
    | [] =>
      rw [ac3LoopF_nil] at h
      simp only [Option.some.injEq, Prod.mk.injEq] at h
      rw [← h.2]
    | _ :: _ => simp [ac3LoopF] at h
  | succ n ih =>
    intro s q b s' h
    match q with
    | [] =>
      rw [ac3LoopF_nil] at h
      simp only [Option.some.injEq, Prod.mk.injEq] at h
      rw [← h.2]
    | (x, y) :: rest =>
      cases hr : revise s x y with
      | none => rw [ac3LoopF_step_raise n s x y rest hr] at h; simp at h
      | some p =>
        obtain ⟨s'', c⟩ := p
        have hcw : s''.crossword = s.crossword := revise_crossword s x y s'' c hr
        cases c with
        | true =>
          cases hd : getDomain? s''.domains x with
          | none => rw [ac3LoopF_step_keyerr n s s'' x y rest hr hd] at h; simp at h
          | some dx' =>
            by_cases hz : dx'.length = 0
            · rw [ac3LoopF_step_empty n s s'' x y rest dx' hr hd hz] at h
              simp only [Option.some.injEq, Prod.mk.injEq] at h
              rw [← h.2, hcw]
            · rw [ac3LoopF_step_requeue n s s'' x y rest dx' hr hd hz] at h
              rw [ih s'' _ b s' h, hcw]
        | false =>
          rw [ac3LoopF_step_norevision n s s'' x y rest hr] at h
          rw [ih s'' rest b s' h, hcw]

theorem ac3F_crossword (n : Nat) (s : CCState) (arcs : Option (List (Slot × Slot)))
    (b : Bool) (s' : CCState) (h : ac3F n s arcs = some (some (b, s'))) :
    s'.crossword = s.crossword := by
  unfold ac3F at h
  exact ac3LoopF_crossword n s _ b s' h

/-- **C5**: every non-`None` result of `solve` is a complete assignment that
satisfies `consistent`: the assigned words are pairwise distinct, each word's
length equals its slot's length, and for every assigned slot and each of its
neighbors the characters at the overlap indices agree (for any fuel, any
tie-breaking function). -/
theorem solve_sound (s : CCState) (choice : List Slot → Option Slot) (fuel : Nat)
    (a : Assignment) (h : solve s choice fuel = some (some a)) :
    assignment_complete s.crossword a = true ∧
    consistent s.crossword a = some true ∧
    (a.map Prod.snd).Nodup ∧
    (∀ p ∈ a, (p.2 : Word).length = p.1.length) ∧
    (∀ p ∈ a, ∀ nb ∈ neighbors s.crossword p.1, ∃ nbw vi ni ch,
      lookupWord a nb = some nbw ∧ overlap? s.crossword p.1 nb = some (vi, ni) ∧
      p.2.get? vi = some ch ∧ nbw.get? ni = some ch) := by
  simp only [solve] at h
  split at h
  · simp at h
  · simp at h
  · rename_i b s2 hac3
    have hcw2 : s2.crossword = s.crossword :=
      ac3F_crossword fuel (enforce_node_consistency s) none b s2 hac3
    obtain ⟨hcomp, hcons⟩ := backtrack_sound s2 choice fuel [] a h
    rw [hcw2] at hcomp hcons
    have hprops := consistentAux_true_props s.crossword a a []
      (by simpa [consistent] using hcons)
    refine ⟨hcomp, hcons, hprops.1.1, ?_, ?_⟩
    · intro p hp
      exact (hprops.2 p hp).1
    · intro p hp nb hnb
      exact checkNeighbors_true s.crossword a p.1 p.2 (neighbors s.crossword p.1)
        (hprops.2 p hp).2 nb hnb

theorem solve_sound_witness :
    solve (initState crossSingle) List.head? 3 = some (some [(slotC, ['a'])]) ∧
    (assignment_complete (initState crossSingle).crossword [(slotC, ['a'])] = true ∧
     consistent (initState crossSingle).crossword [(slotC, ['a'])] = some true ∧
     (([(slotC, ['a'])] : Assignment).map Prod.snd).Nodup ∧
     (∀ p ∈ ([(slotC, ['a'])] : Assignment), (p.2 : Word).length = p.1.length) ∧
     (∀ p ∈ ([(slotC, ['a'])] : Assignment),
       ∀ nb ∈ neighbors (initState crossSingle).crossword p.1, ∃ nbw vi ni ch,
         lookupWord [(slotC, ['a'])] nb = some nbw ∧
         overlap? (initState crossSingle).crossword p.1 nb = some (vi, ni) ∧
         p.2.get? vi = some ch ∧ nbw.get? ni = some ch)) :=
  ⟨by decide, solve_sound (initState crossSingle) List.head? 3 [(slotC, ['a'])] (by decide)⟩
